import Mathlib

set_option exponentiation.threshold 4000

/-!
# Verification of the mini-pow-blockchain consensus node

Shallow embedding of `src/apps/blockchain/server.js` (the consensus node of
`dev-zarghami/mini-pow-blockchain`) and proofs about its claims.

Modelling conventions:

* JavaScript `BigInt` arithmetic is embedded as `Nat`; `x >> k` is `x / 2 ^ k`,
  `x << k` is `x * 2 ^ k`, `x & 0x7fffff` is `x % 2 ^ 23`, and
  `(size << 24) | mant` is `size * 2 ^ 24 + mant % 2 ^ 23` (the mantissa is
  below bit 24, so the bitwise or is addition).
* JavaScript numbers used as monetary amounts are embedded as `Int`
  (the spec declares amounts positive integers, on which all the consensus
  sums and comparisons are exact in doubles below `2 ^ 53`); timestamps are
  `Int` milliseconds; the retarget ratio arithmetic is embedded as `Rat`.
* The cryptographic primitives (`sha256`, `ripemd160`, secp256k1 `verify`)
  and the canonical `JSON.stringify` serializations feeding them are
  uninterpreted: every consensus function is parametrized by a `Crypto`
  record of oracles over the structured data that the source serializes.
  Concrete runs instantiate it with a trivial record: the control flow of
  the validators does not depend on the hash values themselves.
* `throw new Error(msg)` inside a validator is `Except.error msg`; the
  HTTP 200/400 split of a handler is a small response inductive.
* File persistence (`saveBlock`, `config.json`) and the gossip fan-out have
  no effect on the validated state and are omitted; the `seenTx` /
  `seenBlockHash` gossip-dedup sets are likewise not part of the state the
  claims quantify over.
-/

/-! ## Byte length of a big integer

`targetToBits` measures its argument through `target.toString(16)` padded to
an even number of digits: `size = ceil(hexLength / 2)` is the byte length of
the target.  `byteLenAux` computes it with an explicit fuel so that it
reduces in the kernel; fuel 300 covers every value the node can produce
(targets decoded from a 32-bit bits word are below `256 ^ 255`, and the
retargeter multiplies by at most `10 ^ 6`). -/

def byteLenAux : Nat → Nat → Nat
  | 0, _ => 1
  | f + 1, t => if t < 256 then 1 else byteLenAux f (t / 256) + 1

/-- Byte length of `t` (the `size` variable of `targetToBits`): number of
bytes of the big-endian hex rendering of `t`, at least 1. -/
def byteLen (t : Nat) : Nat := byteLenAux 300 t

/-! ## Compact target bits (`bitsToTarget` / `targetToBits`, server.js 85-122) -/

/-- `bitsToTarget(bits)`: `size = (bits >>> 24) & 0xff`,
`mant = bits & 0x007fffff`; shift the mantissa by whole bytes. -/
def bitsToTarget (bits : Nat) : Nat :=
  let size := bits / 2 ^ 24 % 256
  let mant := bits % 2 ^ 23
  if size ≤ 3 then mant / 2 ^ (8 * (3 - size)) else mant * 2 ^ (8 * (size - 3))

/-- `targetToBits(target)`: 0 for non-positive targets; otherwise take the
top three bytes as mantissa (for sizes above 3), shifting one byte further
when the mantissa sign bit 23 would be set.  For sizes up to 3 the code pads
the hex to six digits, so the mantissa is the target itself masked to 23
bits; it is NOT shifted left, which is the precision loss proved below. -/
def targetToBits (t : Nat) : Nat :=
  if t = 0 then 0
  else
    let size := byteLen t
    if size ≤ 3 then size * 2 ^ 24 + t % 2 ^ 23
    else
      let top3 := t / 256 ^ (size - 3)
      if 2 ^ 23 ≤ top3 then (size + 1) * 2 ^ 24 + t / 256 ^ (size - 2) % 2 ^ 23
      else size * 2 ^ 24 + top3 % 2 ^ 23

/-- Value of a hex digit character (`BigInt('0x' + s)` semantics for the
hex strings the hash oracles return). -/
def hexDigitVal (c : Char) : Nat :=
  if '0' ≤ c ∧ c ≤ '9' then c.toNat - 48
  else if 'a' ≤ c ∧ c ≤ 'f' then c.toNat - 87
  else if 'A' ≤ c ∧ c ≤ 'F' then c.toNat - 55
  else 0

/-- `BigInt('0x' + hexHash)` for a hex string. -/
def hexToNat (s : String) : Nat :=
  s.data.foldl (fun n c => n * 16 + hexDigitVal c) 0

/-- `hashMeetsBits(hexHash, bits)`: the hash, read as a 256-bit integer,
is at most the decoded target. -/
def hashMeetsBits (hexHash : String) (bits : Nat) : Bool :=
  hexToNat hexHash ≤ bitsToTarget bits

/-! ## Data model (server.js 45-63, 65-82) -/

structure TxInput where
  txid : String
  index : Nat
  pubKey : String
  sig : String
  deriving DecidableEq, Repr

structure TxOutput where
  address : String
  amount : Int
  deriving DecidableEq, Repr

/-- A transaction; a missing `id` is the empty string (JS falsy). -/
structure Tx where
  id : String
  isCoinbase : Bool
  inputs : List TxInput
  outputs : List TxOutput
  deriving DecidableEq, Repr

structure Block where
  index : Nat
  previousHash : String
  timestamp : Int
  transactions : List Tx
  merkleRoot : String
  nonce : Nat
  bits : Nat
  deriving DecidableEq, Repr

/-- A UTXO entry: value of the `utxo` map at key `txid:index`. -/
structure UtxoEntry where
  amount : Int
  address : String
  blockHeight : Nat
  isCoinbase : Bool
  deriving DecidableEq, Repr

/-- The `utxo` map, extensionally: outpoint key to entry. -/
def Utxo : Type := String → Option UtxoEntry

def emptyUtxo : Utxo := fun _ => none

def utxoSet (m : Utxo) (k : String) (v : UtxoEntry) : Utxo :=
  fun k2 => if k2 = k then some v else m k2

def utxoDelete (m : Utxo) (k : String) : Utxo :=
  fun k2 => if k2 = k then none else m k2

/-- The string key `txid + ":" + index` of an outpoint. -/
def outKey (txid : String) (index : Nat) : String :=
  txid ++ ":" ++ toString index

/-- Node configuration (the immutable part of `config`; the mutable `bits`
field lives in `NodeState`). -/
structure Config where
  adjustEvery : Nat
  targetBlockTimeSec : Nat
  blockSubsidy : Nat
  halvingInterval : Nat
  coinbaseMaturity : Nat
  maxBlockTx : Nat
  deriving DecidableEq, Repr

/-- The default `config` literal of server.js lines 28-36. -/
def defaultConfig : Config :=
  { adjustEvery := 10, targetBlockTimeSec := 10, blockSubsidy := 5
    halvingInterval := 100, coinbaseMaturity := 2, maxBlockTx := 25 }

/-- The mutable node state: `chain`, `utxo`, `mempool` (insertion-ordered),
`mempoolSpent`, and the current `config.bits`. -/
structure NodeState where
  chain : List Block
  utxo : Utxo
  mempool : List (String × Tx)
  mempoolSpent : List String
  bits : Nat

/-- `mempool[id]` lookup. -/
def mempoolGet (mp : List (String × Tx)) (id : String) : Option Tx :=
  (mp.find? fun p => p.1 = id).map Prod.snd

/-- `delete mempool[id]`. -/
def mempoolDelete (mp : List (String × Tx)) (id : String) : List (String × Tx) :=
  mp.filter fun p => p.1 ≠ id

/-! ## Crypto oracles

The source hashes canonical `JSON.stringify` serializations and byte
concatenations; we abstract each hashing site as an oracle over the
structured data it serializes. -/

structure Crypto where
  /-- `txIdFor`: sha256 of the canonical json of inputs `(txid,index,pubKey)`
  and outputs `(address,amount)` — signatures excluded. -/
  txIdHash : List (String × Nat × String) → List (String × Int) → String
  /-- the sighash-ALL preimage hash: inputs `(txid,index)`, outputs
  `(address,amount)`. -/
  sigHash : List (String × Nat) → List (String × Int) → String
  /-- `headerHash`: sha256 of `index|previousHash|timestamp|merkleRoot|nonce|bits`. -/
  headerHashFn : Nat → String → Int → String → Nat → Nat → String
  /-- one merkle combination step: sha256 of the concatenation of two
  hex-decoded nodes, as hex. -/
  merkleCombine : String → String → String
  /-- sha256 of the empty buffer, as hex (merkle root of an empty list). -/
  emptyHash : String
  /-- sha256 of the hex-decoded bytes of a string, as hex. -/
  sha256Bytes : String → String
  /-- ripemd160 of the hex-decoded bytes of a string, as hex. -/
  ripemd160Bytes : String → String
  /-- secp256k1 ECDSA verify: pubKey, message hash, signature. -/
  ecVerify : String → String → String → Bool

/-- `txIdFor(tx)` (server.js 56-63): deterministic id, signatures excluded. -/
def txIdFor (C : Crypto) (tx : Tx) : String :=
  C.txIdHash (tx.inputs.map fun i => (i.txid, i.index, i.pubKey))
    (tx.outputs.map fun o => (o.address, o.amount))

/-- `if (!tx.id) tx.id = txIdFor(tx)`. -/
def assignTxId (C : Crypto) (tx : Tx) : Tx :=
  if tx.id = "" then { tx with id := txIdFor C tx } else tx

/-- `headerHash(block)` (server.js 65-68). -/
def headerHashOf (C : Crypto) (b : Block) : String :=
  C.headerHashFn b.index b.previousHash b.timestamp b.merkleRoot b.nonce b.bits

/-- `pubKeyToAddress` (server.js 158-162): ripemd160 of sha256 of the
pubkey bytes. -/
def pubKeyToAddress (C : Crypto) (pubKeyHex : String) : String :=
  C.ripemd160Bytes (C.sha256Bytes pubKeyHex)

/-! ## Merkle root (server.js 70-82) -/

/-- Duplicate the last node when the level is odd. -/
def padEven (nodes : List String) : List String :=
  if nodes.length % 2 = 1 then
    nodes ++ (match nodes.getLast? with | some x => [x] | none => [])
  else nodes

/-- Combine adjacent pairs of one merkle level. -/
def combinePairs (C : Crypto) : List String → List String
  | a :: b :: rest => C.merkleCombine a b :: combinePairs C rest
  | _ => []

/-- The `while (nodes.length > 1)` loop, with fuel (each round at least
halves a padded level, so fuel `txids.length` suffices). -/
def merkleLoop (C : Crypto) : Nat → List String → String
  | _, [x] => x
  | f + 1, nodes => merkleLoop C f (combinePairs C (padEven nodes))
  | 0, nodes => nodes.headD ""

/-- `merkleRoot(txids)`. -/
def merkleRootOf (C : Crypto) (txids : List String) : String :=
  if txids = [] then C.emptyHash else merkleLoop C txids.length txids

/-! ## Consensus rules (server.js 151-225) -/

/-- `getBlockReward(height)` (server.js 152-156):
`max(floor(blockSubsidy / 2 ^ floor(height / halvingInterval)), 0)`. -/
def getBlockReward (cfg : Config) (height : Nat) : Nat :=
  let halvings := height / cfg.halvingInterval
  max (cfg.blockSubsidy / 2 ^ halvings) 0

/-- `verifyInputSig(tx, inputIndex)` (server.js 164-183), for the input `i`
of `tx`: a missing pubKey or sig, or a failing ECDSA verification, is an
error. -/
def verifyInputSig (C : Crypto) (tx : Tx) (i : TxInput) : Except String Unit :=
  if i.pubKey = "" ∨ i.sig = "" then .error "missing pubKey or sig"
  else
    let msg := C.sigHash (tx.inputs.map fun j => (j.txid, j.index))
      (tx.outputs.map fun o => (o.address, o.amount))
    if C.ecVerify i.pubKey msg i.sig then .ok () else .error "bad signature"

/-- Running sum of output amounts (`outSum`). -/
def outSum (outs : List TxOutput) : Int :=
  (outs.map fun o => o.amount).sum

/-- The input loop of `validateTx` (server.js 198-217): intra-tx double
spend via the `used` set, UTXO existence, coinbase maturity against
`currentHeight`, signature, pubKey-address match; accumulates `inSum`. -/
def checkTxInputs (C : Crypto) (cfg : Config) (utxo : Utxo) (currentHeight : Nat)
    (tx : Tx) : List TxInput → List String → Int → Except String Int
  | [], _, inSum => .ok inSum
  | i :: rest, used, inSum =>
    let key := outKey i.txid i.index
    if key ∈ used then .error "double spend in tx"
    else
      match utxo key with
      | none => .error "missing UTXO"
      | some entry =>
        if entry.isCoinbase ∧
            (currentHeight : Int) - entry.blockHeight < cfg.coinbaseMaturity then
          .error "coinbase not mature"
        else
          match verifyInputSig C tx i with
          | .error e => .error e
          | .ok _ =>
            if pubKeyToAddress C i.pubKey ≠ entry.address then
              .error "pubKey does not match UTXO address"
            else
              checkTxInputs C cfg utxo currentHeight tx rest (key :: used)
                (inSum + entry.amount)

/-- `validateTx(tx, currentHeight)` (server.js 185-225).  The coinbase
branch requires no inputs and positive outputs.  A spend checks its inputs,
then every output amount, then `inSum < outSum`.  NOTE: the source has no
check that `inputs` or `outputs` is nonempty. -/
def validateTx (C : Crypto) (cfg : Config) (utxo : Utxo) (currentHeight : Nat)
    (tx : Tx) : Except String Unit :=
  if tx.isCoinbase then
    if tx.inputs.length ≠ 0 then .error "coinbase must have no inputs"
    else if tx.outputs.any fun o => decide (o.amount ≤ 0) then
      .error "coinbase bad amount"
    else .ok ()
  else
    match checkTxInputs C cfg utxo currentHeight tx tx.inputs [] 0 with
    | .error e => .error e
    | .ok inSum =>
      if tx.outputs.any fun o => decide (o.amount ≤ 0) then .error "output <= 0"
      else if inSum < outSum tx.outputs then .error "inputs < outputs"
      else .ok ()

/-! ## Block validation (server.js 227-295) -/

/-- `tx.outputs.forEach((o, idx) => map.set(tx.id:idx, {...}))`: add the
outputs of `tx` at height `height` (used identically by `validateBlock`,
`applyBlock` and `rebuildUTXO`). -/
def addTxOutputs (m : Utxo) (tx : Tx) (height : Nat) : Utxo :=
  tx.outputs.enum.foldl
    (fun acc p =>
      utxoSet acc (outKey tx.id p.1)
        { amount := p.2.amount, address := p.2.address
          blockHeight := height, isCoinbase := tx.isCoinbase })
    m

/-- The spend loop of a non-coinbase transaction inside `validateBlock`
(server.js 262-278): look up each input in the temp map, enforce coinbase
maturity against `block.index`, verify the signature and the
pubKey-address match, delete the entry, accumulate `inSum`. -/
def spendBlockInputs (C : Crypto) (cfg : Config) (blockIndex : Nat) (tx : Tx) :
    List TxInput → Utxo → Int → Except String (Int × Utxo)
  | [], temp, inSum => .ok (inSum, temp)
  | i :: rest, temp, inSum =>
    let key := outKey i.txid i.index
    match temp key with
    | none => .error "missing input"
    | some ent =>
      if ent.isCoinbase ∧
          (blockIndex : Int) - ent.blockHeight < cfg.coinbaseMaturity then
        .error "coinbase not mature"
      else
        match verifyInputSig C tx i with
        | .error e => .error e
        | .ok _ =>
          if pubKeyToAddress C i.pubKey ≠ ent.address then
            .error "pubKey!=address"
          else
            spendBlockInputs C cfg blockIndex tx rest (utxoDelete temp key)
              (inSum + ent.amount)

/-- The transaction walk of `validateBlock` (server.js 247-285) over the
temporary UTXO map: returns the final temp map, the accumulated `feeTotal`,
and the `coinbaseCount`. -/
def blockTxWalk (C : Crypto) (cfg : Config) (blockIndex : Nat) :
    List Tx → Utxo → Int → Nat → Except String (Utxo × Int × Nat)
  | [], temp, fee, cnt => .ok (temp, fee, cnt)
  | tx :: rest, temp, fee, cnt =>
    if tx.isCoinbase then
      if tx.inputs.length ≠ 0 then .error "coinbase has inputs"
      else blockTxWalk C cfg blockIndex rest (addTxOutputs temp tx blockIndex)
        fee (cnt + 1)
    else
      match spendBlockInputs C cfg blockIndex tx tx.inputs temp 0 with
      | .error e => .error e
      | .ok (inSum, temp2) =>
        if inSum < outSum tx.outputs then .error "tx spends more than inputs"
        else blockTxWalk C cfg blockIndex rest (addTxOutputs temp2 tx blockIndex)
          (fee + (inSum - outSum tx.outputs)) cnt

/-- The height / previous-hash link check (server.js 228-234). -/
def checkLink (C : Crypto) (chain : List Block) (block : Block) :
    Except String Unit :=
  match chain.getLast? with
  | none => if block.index ≠ 0 then .error "genesis index must be 0" else .ok ()
  | some tip =>
    if block.index ≠ tip.index + 1 then .error "bad index"
    else if block.previousHash ≠ headerHashOf C tip then
      .error "prev hash mismatch"
    else .ok ()

/-- `validateBlock(block)` (server.js 227-295): link, timestamp bound,
merkle root over the transaction ids as given, proof of work against
`block.bits`, the transaction walk, exactly one coinbase, and the coinbase
value bound `cbOut ≤ getBlockReward(index) + feeTotal`. -/
def validateBlock (C : Crypto) (cfg : Config) (now : Int) (chain : List Block)
    (utxo : Utxo) (block : Block) : Except String Unit :=
  match checkLink C chain block with
  | .error e => .error e
  | .ok _ =>
    if now + 7200000 < block.timestamp then .error "timestamp too far in future"
    else if merkleRootOf C (block.transactions.map fun t => t.id) ≠
        block.merkleRoot then .error "merkle mismatch"
    else if ¬ hashMeetsBits (headerHashOf C block) block.bits then
      .error "insufficient PoW"
    else
      match blockTxWalk C cfg block.index block.transactions utxo 0 0 with
      | .error e => .error e
      | .ok (_, feeTotal, coinbaseCount) =>
        if coinbaseCount ≠ 1 then .error "block must have exactly 1 coinbase"
        else
          match block.transactions.find? fun t => t.isCoinbase with
          | none => .error "coinbase missing"
          | some cb =>
            if (getBlockReward cfg block.index : Int) + feeTotal <
                outSum cb.outputs then .error "coinbase too large"
            else .ok ()

/-! ## State mutation (server.js 297-334) and HTTP handlers (367-464) -/

/-- The UTXO effect of one transaction: delete every input outpoint, then
add every output (the identical loop body of `rebuildUTXO` lines 140-146 and
`applyBlock` lines 300-301). -/
def applyTxUtxo (height : Nat) (u : Utxo) (tx : Tx) : Utxo :=
  addTxOutputs
    (tx.inputs.foldl (fun m i => utxoDelete m (outKey i.txid i.index)) u)
    tx height

/-- `rebuildUTXO()` (server.js 137-149): replay every block of the chain in
order starting from the empty map. -/
def rebuildUTXO (chain : List Block) : Utxo :=
  chain.foldl
    (fun u b => b.transactions.foldl (fun u2 tx => applyTxUtxo b.index u2 tx) u)
    emptyUtxo

/-- The mempool effect of one mined transaction (server.js 302-305): when
the id is pooled, release its reserved outpoints and drop it. -/
def evictMinedTx (mp : List (String × Tx)) (sp : List String) (tx : Tx) :
    List (String × Tx) × List String :=
  match mempoolGet mp tx.id with
  | some _ =>
    (mempoolDelete mp tx.id,
     tx.inputs.foldl (fun s i => s.filter fun k => k ≠ outKey i.txid i.index) sp)
  | none => (mp, sp)

/-- `applyBlock(block)` (server.js 297-312): per transaction, spend inputs
and create outputs in the live UTXO map and evict it from the mempool; then
append the block to the chain.  (Persistence and the seen-hash gossip set
are outside the modelled state.) -/
def applyBlockState (s : NodeState) (b : Block) : NodeState :=
  let folded := b.transactions.foldl
    (fun (acc : Utxo × List (String × Tx) × List String) tx =>
      let u := applyTxUtxo b.index acc.1 tx
      let msp := evictMinedTx acc.2.1 acc.2.2 tx
      (u, msp.1, msp.2))
    (s.utxo, s.mempool, s.mempoolSpent)
  { chain := s.chain ++ [b], utxo := folded.1, mempool := folded.2.1
    mempoolSpent := folded.2.2, bits := s.bits }

/-! ## Difficulty retarget (server.js 314-334)

The source computes `ratio` and `1 / ratio * 1e6` in IEEE doubles; the
embedding uses exact rationals.  Every concrete instance proved below uses
values (clamp bounds, powers of two, small integers) on which the double
computation is exact, so the idealization is faithful there. -/

/-- `Math.round` for the non-negative values the retargeter feeds it. -/
def jsRound (q : Rat) : Int := ⌊q + 1 / 2⌋

/-- The sequential clamp `if (ratio < 0.25) ...; if (ratio > 4) ...`. -/
def clampR (r : Rat) : Rat :=
  if r < 1 / 4 then 1 / 4 else if 4 < r then 4 else r

/-- `BigInt(curTarget / BigInt(Math.round(1 / ratio * 1e6))) * BigInt(1e6)`
followed by the `newTarget <= 0` clamp to 1, as a function of the current
target and the already-rounded divisor `d`. -/
def scaledTarget (cur d : Nat) : Nat :=
  let nt := cur / d * 1000000
  if nt = 0 then 1 else nt

/-- The divisor `BigInt(Math.round(1 / ratio * 1e6))` with the ratio
computed as `expected / (actual || 1)` and clamped to `[0.25, 4]`. -/
def retargetDivisor (cfg : Config) (actualSec : Rat) : Nat :=
  let expected : Rat := (cfg.adjustEvery * cfg.targetBlockTimeSec : Nat)
  let r := clampR (expected / (if actualSec = 0 then 1 else actualSec))
  (jsRound (1 / r * 1000000)).toNat

/-- The bits update a retarget performs, as a function of the current bits
and the observed `actual` seconds: clamp the ratio, scale the decoded
target, clamp to 1, re-encode. -/
def retargetStep (cfg : Config) (bits : Nat) (actualSec : Rat) : Nat :=
  targetToBits (scaledTarget (bitsToTarget bits) (retargetDivisor cfg actualSec))

instance : Inhabited Block :=
  ⟨{ index := 0, previousHash := "", timestamp := 0, transactions := []
     merkleRoot := "", nonce := 0, bits := 0 }⟩

/-- `maybeRetarget()` (server.js 314-334): on a height that is a positive
multiple of `adjustEvery`, measure the span of the last window and update
`config.bits`. -/
def maybeRetarget (cfg : Config) (s : NodeState) : NodeState :=
  let h := s.chain.length
  if h = 0 ∨ h % cfg.adjustEvery ≠ 0 then s
  else
    let last := (s.chain.getLast?).getD default
    let first := s.chain.getD (h - cfg.adjustEvery) default
    let actual : Rat := ((last.timestamp - first.timestamp : Int) : Rat) / 1000
    { s with bits := retargetStep cfg s.bits actual }

/-- Response of the `/transactions` handler. -/
inductive TxResp where
  | ok (id : String)
  | err (msg : String)
  deriving DecidableEq, Repr

/-- Response of the `/blocks` handler. -/
inductive BlockResp where
  | ok (height : Nat)
  | err (msg : String)
  deriving DecidableEq, Repr

/-- `app.post('/transactions')` (server.js 367-393): assign the id if
missing, `validateTx` against the live UTXO at `chain.length`, reject when
an outpoint is reserved in `mempoolSpent`, return an idempotent ok for a
pooled duplicate id, otherwise insert and reserve. -/
def postTransaction (C : Crypto) (cfg : Config) (s : NodeState) (tx0 : Tx) :
    TxResp × NodeState :=
  let tx := assignTxId C tx0
  match validateTx C cfg s.utxo s.chain.length tx with
  | .error e => (.err e, s)
  | .ok _ =>
    if tx.inputs.any fun i => s.mempoolSpent.contains (outKey i.txid i.index) then
      (.err "mempool double spend", s)
    else if (mempoolGet s.mempool tx.id).isSome then (.ok tx.id, s)
    else
      (.ok tx.id,
       { s with
         mempool := s.mempool ++ [(tx.id, tx)]
         mempoolSpent :=
           s.mempoolSpent ++ tx.inputs.map fun i => outKey i.txid i.index })

/-- `app.post('/blocks')` (server.js 395-410): recompute missing ids,
validate, and only on success apply the block and run the retargeter. -/
def postBlock (C : Crypto) (cfg : Config) (now : Int) (s : NodeState)
    (b0 : Block) : BlockResp × NodeState :=
  let b := { b0 with transactions := b0.transactions.map (assignTxId C) }
  match validateBlock C cfg now s.chain s.utxo b with
  | .error e => (.err e, s)
  | .ok _ => (.ok b.index, maybeRetarget cfg (applyBlockState s b))

/-- Fee of one candidate transaction against the live UTXO
(server.js 433-442): sum the resolvable inputs, and count the difference
only when it is positive. -/
def candidateFee (u : Utxo) (t : Tx) : Int :=
  let inS := (t.inputs.map fun i =>
    match u (outKey i.txid i.index) with
    | some e => e.amount
    | none => (0 : Int)).sum
  if outSum t.outputs < inS then inS - outSum t.outputs else 0

/-- `app.get('/block/candidate/:address')` (server.js 413-464): coinbase
paying subsidy plus the fees of up to `maxBlockTx` pooled transactions,
followed by those transactions; `none` when the chain is empty (the JS
crashes into a 500 response). -/
def blockCandidate (C : Crypto) (cfg : Config) (s : NodeState) (addr : String)
    (now : Int) : Option Block :=
  match s.chain.getLast? with
  | none => none
  | some tip =>
    let index := tip.index + 1
    let pool := (s.mempool.map Prod.snd).take cfg.maxBlockTx
    let fee := (pool.map (candidateFee s.utxo)).sum
    let coinbase0 : Tx :=
      { id := "", isCoinbase := true, inputs := []
        outputs := [{ address := addr
                      amount := (getBlockReward cfg index : Int) + fee }] }
    let coinbase := { coinbase0 with id := txIdFor C coinbase0 }
    let list := (coinbase :: pool).map (assignTxId C)
    some
      { index := index, previousHash := headerHashOf C tip, timestamp := now
        transactions := list
        merkleRoot := merkleRootOf C (list.map fun t => t.id)
        nonce := 0, bits := s.bits }

/-! ## Reachable node states

Boot loads a persisted chain (creating a genesis when empty — a loaded
chain is any list, of which the fresh-genesis singleton is an instance) and
rebuilds the UTXO from it (server.js 466-492); afterwards the state evolves
only through the transaction and block ingress handlers (the P2P message
handlers run the same `validateTx` / `validateBlock` / `applyBlock` /
`maybeRetarget` pipeline). -/

inductive Reach (C : Crypto) (cfg : Config) : NodeState → Prop
  | boot (chain0 : List Block) (bits0 : Nat) :
      Reach C cfg
        { chain := chain0, utxo := rebuildUTXO chain0, mempool := []
          mempoolSpent := [], bits := bits0 }
  | stepTx (s : NodeState) (tx : Tx) (h : Reach C cfg s) :
      Reach C cfg (postTransaction C cfg s tx).2
  | stepBlock (s : NodeState) (now : Int) (b : Block) (h : Reach C cfg s) :
      Reach C cfg (postBlock C cfg now s b).2

/-! ## Concrete instances

A trivial crypto oracle: constant hashes and an accepting verifier.  The
validators' control flow never inspects hash structure, so this instance
exercises exactly the code paths under test. -/

def trivC : Crypto :=
  { txIdHash := fun _ _ => "aa"
    sigHash := fun _ _ => "55"
    headerHashFn := fun _ _ _ _ _ _ => "00"
    merkleCombine := fun _ _ => "00"
    emptyHash := "ee"
    sha256Bytes := fun _ => "22"
    ripemd160Bytes := fun _ => "ad"
    ecVerify := fun _ _ _ => true }

/-- The genesis block shape (server.js 470-489) under `trivC`. -/
def genesisB : Block :=
  { index := 0, previousHash := "0", timestamp := 0
    transactions := [{ id := "genesis", isCoinbase := true, inputs := []
                       outputs := [{ address := "genesis", amount := 0 }] }]
    merkleRoot := "genesis", nonce := 0, bits := 0x1e00ffff }

/-- A pooled spend transaction (one input, one output) used to exercise the
duplicate-submission path. -/
def spendTx4 : Tx :=
  { id := "dd", isCoinbase := false
    inputs := [{ txid := "t0", index := 0, pubKey := "pk", sig := "sg" }]
    outputs := [{ address := "b", amount := 3 }] }

/-- A node state whose mempool already holds `spendTx4` with its outpoint
reserved, and whose UTXO can cover it (the entry's address is
`pubKeyToAddress trivC "pk"`). -/
def state4 : NodeState :=
  { chain := [genesisB]
    utxo := utxoSet (rebuildUTXO [genesisB]) (outKey "t0" 0)
      { amount := 5, address := "ad", blockHeight := 0, isCoinbase := false }
    mempool := [("dd", spendTx4)], mempoolSpent := [outKey "t0" 0]
    bits := 0x1e00ffff }

/-- A coinbase transaction whose `id` field is the arbitrary hex string
`"deadbeef"`, not the content hash `txIdFor trivC` would produce. -/
def cbTx9 : Tx :=
  { id := "deadbeef", isCoinbase := true, inputs := []
    outputs := [{ address := "miner", amount := 5 }] }

/-- A block at height 1 over the genesis carrying `cbTx9`, with the merkle
root computed over the supplied id (a single leaf is its own root). -/
def block9 : Block :=
  { index := 1, previousHash := "00", timestamp := 0, transactions := [cbTx9]
    merkleRoot := "deadbeef", nonce := 0, bits := 0x1e00ffff }

/-- The freshly booted genesis-only node state under `trivC`. -/
def state9 : NodeState :=
  { chain := [genesisB], utxo := rebuildUTXO [genesisB], mempool := []
    mempoolSpent := [], bits := 0x1e00ffff }

/-- A non-coinbase transaction with no inputs and no outputs: `validateTx`
and the block walk accept it (no nonemptiness rule exists). -/
def emptySpendTx : Tx := { id := "aa", isCoinbase := false, inputs := [], outputs := [] }

/-- Coinbase for the oversized block. -/
def cbTx10 : Tx :=
  { id := "bb", isCoinbase := true, inputs := []
    outputs := [{ address := "m", amount := 5 }] }

/-- A block with 27 transactions — more than `maxBlockTx = 25` — all rules
passing. -/
def block10 : Block :=
  { index := 1, previousHash := "00", timestamp := 0
    transactions := cbTx10 :: List.replicate 26 emptySpendTx
    merkleRoot := "00", nonce := 0, bits := 0x1e00ffff }

/-! ## Arithmetic lemmas for the compact-bits encoding -/

theorem byteLenAux_pos (f t : Nat) : 1 ≤ byteLenAux f t := by
  cases f with
  | zero => exact le_refl 1
  | succ f =>
    rw [byteLenAux]
    by_cases h : t < 256 <;> simp [h]

theorem byteLenAux_spec (f : Nat) : ∀ t, 0 < t → t < 256 ^ f →
    256 ^ (byteLenAux f t - 1) ≤ t ∧ t < 256 ^ (byteLenAux f t) := by
  induction f with
  | zero =>
    intro t h0 hf
    simp only [pow_zero] at hf
    omega
  | succ f ih =>
    intro t h0 hf
    rw [byteLenAux]
    by_cases h : t < 256
    · simp only [h, if_true]
      constructor
      · simpa using h0
      · simpa using h
    · simp only [h, if_false]
      have h256 : 256 ≤ t := le_of_not_lt h
      have hdiv0 : 0 < t / 256 := Nat.div_pos h256 (by norm_num)
      have hdivlt : t / 256 < 256 ^ f := by
        rw [Nat.div_lt_iff_lt_mul (by norm_num : 0 < 256)]
        calc t < 256 ^ (f + 1) := hf
          _ = 256 ^ f * 256 := by ring
      obtain ⟨h1, h2⟩ := ih (t / 256) hdiv0 hdivlt
      have hbpos : 1 ≤ byteLenAux f (t / 256) := byteLenAux_pos f (t / 256)
      set b := byteLenAux f (t / 256) with hb
      constructor
      · have hmul : 256 ^ (b - 1) * 256 ≤ t / 256 * 256 :=
          Nat.mul_le_mul_right 256 h1
        have hchain : t / 256 * 256 ≤ t := Nat.div_mul_le_self t 256
        have hpow : 256 ^ (b - 1) * 256 = 256 ^ b := by
          rw [← pow_succ]
          congr 1
          omega
        have : 256 ^ b ≤ t := by
          rw [← hpow]
          exact le_trans hmul hchain
        simpa using this
      · have : t < 256 ^ b * 256 := (Nat.div_lt_iff_lt_mul (by norm_num)).mp h2
        calc t < 256 ^ b * 256 := this
          _ = 256 ^ (b + 1) := (pow_succ 256 b).symm

theorem byteLen_pos (t : Nat) : 1 ≤ byteLen t := byteLenAux_pos 300 t

theorem byteLen_spec (t : Nat) (h0 : 0 < t) (hlt : t < 256 ^ 300) :
    256 ^ (byteLen t - 1) ≤ t ∧ t < 256 ^ (byteLen t) :=
  byteLenAux_spec 300 t h0 hlt

theorem byteLen_eq (t k : Nat) (hk : 0 < k) (hk300 : k ≤ 300)
    (h1 : 256 ^ (k - 1) ≤ t) (h2 : t < 256 ^ k) : byteLen t = k := by
  have h0 : 0 < t := lt_of_lt_of_le (pow_pos (by norm_num) _) h1
  have hlt : t < 256 ^ 300 :=
    lt_of_lt_of_le h2 (Nat.pow_le_pow_right (by norm_num) hk300)
  obtain ⟨g1, g2⟩ := byteLen_spec t h0 hlt
  rcases Nat.lt_trichotomy (byteLen t) k with h | h | h
  · exfalso
    have : 256 ^ byteLen t ≤ 256 ^ (k - 1) :=
      Nat.pow_le_pow_right (by norm_num) (by omega)
    omega
  · exact h
  · exfalso
    have : 256 ^ k ≤ 256 ^ (byteLen t - 1) :=
      Nat.pow_le_pow_right (by norm_num) (by omega)
    omega

theorem encoded_size (s m : Nat) (hm : m < 2 ^ 24) (hs : s < 256) :
    (s * 2 ^ 24 + m) / 2 ^ 24 % 256 = s := by
  have h1 : (s * 2 ^ 24 + m) / 2 ^ 24 = s := by
    rw [Nat.add_comm, Nat.add_mul_div_right m s (by norm_num : 0 < 2 ^ 24),
      Nat.div_eq_of_lt hm, Nat.zero_add]
  rw [h1, Nat.mod_eq_of_lt hs]

theorem encoded_mant (s m : Nat) (hm : m < 2 ^ 23) :
    (s * 2 ^ 24 + m) % 2 ^ 23 = m := by
  have h1 : s * 2 ^ 24 = s * 2 * 2 ^ 23 := by ring
  rw [h1, Nat.add_comm, Nat.add_mul_mod_self_right, Nat.mod_eq_of_lt hm]

/-- Decoding an explicitly assembled bits word. -/
theorem bitsToTarget_assembled (s m : Nat) (hm : m < 2 ^ 23) (hs : s < 256) :
    bitsToTarget (s * 2 ^ 24 + m) =
      if s ≤ 3 then m / 2 ^ (8 * (3 - s)) else m * 2 ^ (8 * (s - 3)) := by
  rw [bitsToTarget]
  rw [encoded_size s m (lt_trans hm (by norm_num)) hs, encoded_mant s m hm]

theorem two_pow_eight_mul (k : Nat) : 2 ^ (8 * k) = 256 ^ k := by
  rw [pow_mul]
  norm_num

theorem byteLen_le_of_lt (t n : Nat) (h0 : 0 < t) (hn : n ≤ 300)
    (hlt : t < 256 ^ n) : byteLen t ≤ n := by
  have hlt300 : t < 256 ^ 300 :=
    lt_of_lt_of_le hlt (Nat.pow_le_pow_right (by norm_num) hn)
  obtain ⟨hl, hu⟩ := byteLen_spec t h0 hlt300
  by_contra h
  push_neg at h
  have : 256 ^ n ≤ 256 ^ (byteLen t - 1) :=
    Nat.pow_le_pow_right (by norm_num) (by omega)
  omega

theorem byteLen_ge_four (t : Nat) (h24 : 2 ^ 24 ≤ t) (hlt : t < 256 ^ 300) :
    4 ≤ byteLen t := by
  have h0 : 0 < t := lt_of_lt_of_le (by norm_num) h24
  obtain ⟨hl, hu⟩ := byteLen_spec t h0 hlt
  by_contra h
  push_neg at h
  have h3 : 256 ^ byteLen t ≤ 256 ^ 3 :=
    Nat.pow_le_pow_right (by norm_num) (by omega)
  have h4 : (256 : Nat) ^ 3 = 2 ^ 24 := by norm_num
  omega

/-- Full behaviour of decode-after-encode for targets of at least four
bytes: the decoded value is the target truncated to its top three bytes
(top two when the high mantissa bit forces the size bump), hence at most
the target, within `256 ^ (byteLen t - 2)` of it, positive, and a fixed
point of the encoding. -/
theorem encode_decode_main (t : Nat) (h24 : 2 ^ 24 ≤ t) (hlt : t < 256 ^ 254) :
    bitsToTarget (targetToBits t) ≤ t ∧
    t - bitsToTarget (targetToBits t) < 256 ^ (byteLen t - 2) ∧
    targetToBits (bitsToTarget (targetToBits t)) = targetToBits t ∧
    1 ≤ bitsToTarget (targetToBits t) := by
  have h0 : 0 < t := lt_of_lt_of_le (by norm_num) h24
  have hlt300 : t < 256 ^ 300 :=
    lt_of_lt_of_le hlt (Nat.pow_le_pow_right (by norm_num) (by norm_num))
  obtain ⟨hl, hu⟩ := byteLen_spec t h0 hlt300
  have hs4 : 4 ≤ byteLen t := byteLen_ge_four t h24 hlt300
  have hs254 : byteLen t ≤ 254 := byteLen_le_of_lt t 254 h0 (by norm_num) hlt
  set s := byteLen t with hsdef
  have hp3 : (0 : Nat) < 256 ^ (s - 3) := pow_pos (by norm_num) _
  have hp2 : (0 : Nat) < 256 ^ (s - 2) := pow_pos (by norm_num) _
  have htop3_lb : 2 ^ 16 ≤ t / 256 ^ (s - 3) := by
    rw [Nat.le_div_iff_mul_le hp3]
    calc (2 : Nat) ^ 16 * 256 ^ (s - 3) = 256 ^ 2 * 256 ^ (s - 3) := by norm_num
      _ = 256 ^ (s - 1) := by rw [← pow_add]; congr 1; omega
      _ ≤ t := hl
  have htop3_ub : t / 256 ^ (s - 3) < 2 ^ 24 := by
    rw [Nat.div_lt_iff_lt_mul hp3]
    calc t < 256 ^ s := hu
      _ = 2 ^ 24 * 256 ^ (s - 3) := by
        rw [show (2 : Nat) ^ 24 = 256 ^ 3 by norm_num, ← pow_add]
        congr 1
        omega
  have henc : targetToBits t =
      if 2 ^ 23 ≤ t / 256 ^ (s - 3) then
        (s + 1) * 2 ^ 24 + t / 256 ^ (s - 2) % 2 ^ 23
      else s * 2 ^ 24 + t / 256 ^ (s - 3) % 2 ^ 23 := by
    rw [targetToBits]
    simp only [← hsdef, if_neg (by omega : ¬ t = 0), if_neg (by omega : ¬ s ≤ 3)]
  by_cases hfix : 2 ^ 23 ≤ t / 256 ^ (s - 3)
  · -- the high mantissa bit is set: keep the top two bytes, bump the size
    have htop2_eq : t / 256 ^ (s - 3) / 256 = t / 256 ^ (s - 2) := by
      rw [Nat.div_div_eq_div_mul, ← pow_succ, show s - 3 + 1 = s - 2 by omega]
    have htop2_lb : 2 ^ 15 ≤ t / 256 ^ (s - 2) := by
      rw [← htop2_eq]
      calc (2 : Nat) ^ 15 = 2 ^ 23 / 256 := by norm_num
        _ ≤ t / 256 ^ (s - 3) / 256 := Nat.div_le_div_right hfix
    have htop2_ub : t / 256 ^ (s - 2) < 2 ^ 16 := by
      rw [Nat.div_lt_iff_lt_mul hp2]
      calc t < 256 ^ s := hu
        _ = 2 ^ 16 * 256 ^ (s - 2) := by
          rw [show (2 : Nat) ^ 16 = 256 ^ 2 by norm_num, ← pow_add]
          congr 1
          omega
    have hmod2 : t / 256 ^ (s - 2) % 2 ^ 23 = t / 256 ^ (s - 2) :=
      Nat.mod_eq_of_lt (by omega)
    rw [if_pos hfix, hmod2] at henc
    have hdec : bitsToTarget (targetToBits t) =
        t / 256 ^ (s - 2) * 256 ^ (s - 2) := by
      rw [henc, bitsToTarget_assembled (s + 1) (t / 256 ^ (s - 2)) (by omega)
        (by omega), if_neg (by omega : ¬ s + 1 ≤ 3)]
      rw [show 8 * (s + 1 - 3) = 8 * (s - 2) by omega, two_pow_eight_mul]
    have hle : t / 256 ^ (s - 2) * 256 ^ (s - 2) ≤ t := Nat.div_mul_le_self t _
    have hid : t / 256 ^ (s - 2) * 256 ^ (s - 2) + t % 256 ^ (s - 2) = t := by
      rw [Nat.mul_comm]
      exact Nat.div_add_mod t _
    have hmodlt : t % 256 ^ (s - 2) < 256 ^ (s - 2) := Nat.mod_lt t hp2
    have hvpos : 0 < t / 256 ^ (s - 2) * 256 ^ (s - 2) :=
      Nat.mul_pos (by omega) hp2
    refine ⟨by rw [hdec]; exact hle, ?_, ?_, by rw [hdec]; omega⟩
    · rw [hdec]
      generalize hD : t / 256 ^ (s - 2) * 256 ^ (s - 2) = D at hid ⊢
      omega
    · -- re-encoding the decoded value gives the same bits
      rw [hdec]
      have hvlb : 256 ^ (s - 1) ≤ t / 256 ^ (s - 2) * 256 ^ (s - 2) := by
        calc (256 : Nat) ^ (s - 1) = 256 * 256 ^ (s - 2) := by
              rw [← pow_succ']
              congr 1
              omega
          _ ≤ 2 ^ 15 * 256 ^ (s - 2) := Nat.mul_le_mul_right _ (by norm_num)
          _ ≤ t / 256 ^ (s - 2) * 256 ^ (s - 2) :=
              Nat.mul_le_mul_right _ htop2_lb
      have hvub : t / 256 ^ (s - 2) * 256 ^ (s - 2) < 256 ^ s := by
        calc t / 256 ^ (s - 2) * 256 ^ (s - 2) < 2 ^ 16 * 256 ^ (s - 2) :=
              (Nat.mul_lt_mul_right hp2).mpr htop2_ub
          _ = 256 ^ s := by
              rw [show (2 : Nat) ^ 16 = 256 ^ 2 by norm_num, ← pow_add]
              congr 1
              omega
      have hblv : byteLen (t / 256 ^ (s - 2) * 256 ^ (s - 2)) = s :=
        byteLen_eq _ s (by omega) (by omega) hvlb hvub
      have hpow32 : (256 : Nat) ^ (s - 2) = 256 * 256 ^ (s - 3) := by
        rw [← pow_succ']
        congr 1
        omega
      have hvtop3 : t / 256 ^ (s - 2) * 256 ^ (s - 2) / 256 ^ (s - 3) =
          t / 256 ^ (s - 2) * 256 := by
        nth_rewrite 2 [hpow32]
        rw [← mul_assoc]
        exact Nat.mul_div_cancel _ hp3
      have hvtop2 : t / 256 ^ (s - 2) * 256 ^ (s - 2) / 256 ^ (s - 2) =
          t / 256 ^ (s - 2) := Nat.mul_div_cancel _ hp2
      rw [targetToBits]
      simp only [hblv]
      rw [if_neg (by omega : ¬ t / 256 ^ (s - 2) * 256 ^ (s - 2) = 0),
        if_neg (by omega : ¬ s ≤ 3), hvtop3, hvtop2,
        if_pos (by omega : 2 ^ 23 ≤ t / 256 ^ (s - 2) * 256), hmod2, henc]
  · -- top three bytes fit: keep them
    have hmod3 : t / 256 ^ (s - 3) % 2 ^ 23 = t / 256 ^ (s - 3) :=
      Nat.mod_eq_of_lt (by omega)
    rw [if_neg hfix, hmod3] at henc
    have hdec : bitsToTarget (targetToBits t) =
        t / 256 ^ (s - 3) * 256 ^ (s - 3) := by
      rw [henc, bitsToTarget_assembled s (t / 256 ^ (s - 3)) (by omega) (by omega),
        if_neg (by omega : ¬ s ≤ 3), two_pow_eight_mul]
    have hle : t / 256 ^ (s - 3) * 256 ^ (s - 3) ≤ t := Nat.div_mul_le_self t _
    have hid : t / 256 ^ (s - 3) * 256 ^ (s - 3) + t % 256 ^ (s - 3) = t := by
      rw [Nat.mul_comm]
      exact Nat.div_add_mod t _
    have hmodlt : t % 256 ^ (s - 3) < 256 ^ (s - 3) := Nat.mod_lt t hp3
    have hstep : (256 : Nat) ^ (s - 3) ≤ 256 ^ (s - 2) :=
      Nat.pow_le_pow_right (by norm_num) (by omega)
    have hvpos : 0 < t / 256 ^ (s - 3) * 256 ^ (s - 3) :=
      Nat.mul_pos (by omega) hp3
    refine ⟨by rw [hdec]; exact hle, ?_, ?_, by rw [hdec]; omega⟩
    · rw [hdec]
      generalize hD : t / 256 ^ (s - 3) * 256 ^ (s - 3) = D at hid ⊢
      omega
    · rw [hdec]
      have hvlb : 256 ^ (s - 1) ≤ t / 256 ^ (s - 3) * 256 ^ (s - 3) := by
        calc (256 : Nat) ^ (s - 1) = 256 ^ 2 * 256 ^ (s - 3) := by
              rw [← pow_add]
              congr 1
              omega
          _ ≤ t / 256 ^ (s - 3) * 256 ^ (s - 3) :=
              Nat.mul_le_mul_right _
                (by calc (256 : Nat) ^ 2 = 2 ^ 16 := by norm_num
                  _ ≤ t / 256 ^ (s - 3) := htop3_lb)
      have hvub : t / 256 ^ (s - 3) * 256 ^ (s - 3) < 256 ^ s := by
        calc t / 256 ^ (s - 3) * 256 ^ (s - 3) < 2 ^ 24 * 256 ^ (s - 3) :=
              (Nat.mul_lt_mul_right hp3).mpr htop3_ub
          _ = 256 ^ s := by
              rw [show (2 : Nat) ^ 24 = 256 ^ 3 by norm_num, ← pow_add]
              congr 1
              omega
      have hblv : byteLen (t / 256 ^ (s - 3) * 256 ^ (s - 3)) = s :=
        byteLen_eq _ s (by omega) (by omega) hvlb hvub
      have hvtop3 : t / 256 ^ (s - 3) * 256 ^ (s - 3) / 256 ^ (s - 3) =
          t / 256 ^ (s - 3) := Nat.mul_div_cancel _ hp3
      rw [targetToBits]
      simp only [hblv]
      rw [if_neg (by omega : ¬ t / 256 ^ (s - 3) * 256 ^ (s - 3) = 0),
        if_neg (by omega : ¬ s ≤ 3), hvtop3, if_neg hfix, hmod3, henc]

/-- For targets below three bytes the encoding stores the raw masked value
and the decode right-shifts it, so the round trip is only bounded above. -/
theorem decode_encode_small_le (t : Nat) (h0 : 0 < t) (hsm : t < 2 ^ 24) :
    bitsToTarget (targetToBits t) ≤ t := by
  have hs3 : byteLen t ≤ 3 :=
    byteLen_le_of_lt t 3 h0 (by norm_num) (by norm_num at hsm ⊢; omega)
  have hs1 : 1 ≤ byteLen t := byteLen_pos t
  have henc : targetToBits t = byteLen t * 2 ^ 24 + t % 2 ^ 23 := by
    rw [targetToBits]
    simp only [if_neg (by omega : ¬ t = 0), if_pos hs3]
  rw [henc, bitsToTarget_assembled _ _ (Nat.mod_lt t (by norm_num)) (by omega),
    if_pos hs3]
  calc t % 2 ^ 23 / 2 ^ (8 * (3 - byteLen t)) ≤ t % 2 ^ 23 := Nat.div_le_self _ _
    _ ≤ t := Nat.mod_le t _

theorem bitsToTarget_targetToBits_le (t : Nat) (h0 : 0 < t)
    (hlt : t < 256 ^ 254) : bitsToTarget (targetToBits t) ≤ t := by
  by_cases h24 : 2 ^ 24 ≤ t
  · exact (encode_decode_main t h24 hlt).1
  · exact decode_encode_small_le t h0 (by omega)

/-- The decoded re-encoding is positive for every target of at least two
bytes other than `2 ^ 23` (whose three-byte mantissa masks to zero). -/
theorem decode_encode_pos (t : Nat) (h16 : 2 ^ 16 ≤ t) (hne : t ≠ 2 ^ 23)
    (hlt : t < 256 ^ 254) : 1 ≤ bitsToTarget (targetToBits t) := by
  by_cases h24 : 2 ^ 24 ≤ t
  · exact (encode_decode_main t h24 hlt).2.2.2
  · have h0 : 0 < t := by omega
    have hbl : byteLen t = 3 :=
      byteLen_eq t 3 (by norm_num) (by norm_num)
        (by norm_num at h16 ⊢; omega) (by norm_num at h24 ⊢; omega)
    have henc : targetToBits t = 3 * 2 ^ 24 + t % 2 ^ 23 := by
      rw [targetToBits]
      simp only [hbl, if_neg (by omega : ¬ t = 0),
        if_pos (by norm_num : (3 : Nat) ≤ 3)]
    rw [henc, bitsToTarget_assembled 3 (t % 2 ^ 23) (Nat.mod_lt t (by norm_num))
      (by norm_num), if_pos (by norm_num : (3 : Nat) ≤ 3)]
    have : t % 2 ^ 23 ≠ 0 := by
      intro hz
      obtain ⟨k, hk⟩ := Nat.dvd_of_mod_eq_zero hz
      omega
    simpa using Nat.one_le_iff_ne_zero.mpr (by simpa using this)

/-- `Math.round` of an integral value is itself. -/
theorem jsRound_natCast (n : Nat) : jsRound (n : Rat) = n := by
  rw [jsRound, add_comm, Int.floor_add_nat]
  norm_num

/-- The retarget divisor when the window of 10 blocks spanned 800 seconds:
the ratio `100 / 800` clamps to `1/4`, so the divisor is `4e6`. -/
theorem retargetDivisor_slow : retargetDivisor defaultConfig 800 = 4000000 := by
  have h : (1 / clampR
      (((defaultConfig.adjustEvery * defaultConfig.targetBlockTimeSec : Nat) : Rat) /
        (if (800 : Rat) = 0 then 1 else 800)) * 1000000) = ((4000000 : Nat) : Rat) := by
    norm_num [clampR, defaultConfig]
  rw [retargetDivisor, h, jsRound_natCast]
  rfl

/-- The retarget divisor when the window of 10 blocks spanned 5 seconds:
the ratio `100 / 5 = 20` clamps to `4`, so the divisor is `250000`. -/
theorem retargetDivisor_fast : retargetDivisor defaultConfig 5 = 250000 := by
  have h : (1 / clampR
      (((defaultConfig.adjustEvery * defaultConfig.targetBlockTimeSec : Nat) : Rat) /
        (if (5 : Rat) = 0 then 1 else 5)) * 1000000) = ((250000 : Nat) : Rat) := by
    norm_num [clampR, defaultConfig]
  rw [retargetDivisor, h, jsRound_natCast]
  rfl

theorem bitsToTarget_lt_of_size (bits : Nat) (hs : bits / 2 ^ 24 % 256 ≤ 251) :
    bitsToTarget bits < 256 ^ 251 := by
  rw [bitsToTarget]
  by_cases h3 : bits / 2 ^ 24 % 256 ≤ 3
  · simp only [if_pos h3]
    calc bits % 2 ^ 23 / 2 ^ (8 * (3 - bits / 2 ^ 24 % 256)) ≤ bits % 2 ^ 23 :=
          Nat.div_le_self _ _
      _ < 2 ^ 23 := Nat.mod_lt _ (by norm_num)
      _ < 256 ^ 251 := by norm_num
  · simp only [if_neg h3]
    have hm : bits % 2 ^ 23 < 2 ^ 23 := Nat.mod_lt _ (by norm_num)
    have hexp : 2 ^ (8 * (bits / 2 ^ 24 % 256 - 3)) ≤ 2 ^ (8 * 248) :=
      Nat.pow_le_pow_right (by norm_num) (by omega)
    calc bits % 2 ^ 23 * 2 ^ (8 * (bits / 2 ^ 24 % 256 - 3)) ≤
          bits % 2 ^ 23 * 2 ^ (8 * 248) := Nat.mul_le_mul_left _ hexp
      _ < 2 ^ 23 * 2 ^ (8 * 248) :=
          (Nat.mul_lt_mul_right (pow_pos (by norm_num) _)).mpr hm
      _ < 256 ^ 251 := by norm_num

theorem scaledTarget_pos (cur d : Nat) : 1 ≤ scaledTarget cur d := by
  simp only [scaledTarget]
  split <;> omega

/-! ## Claim C1 -/

/-- Claim C1 (code bug evidence): at the failing input — current bits
`0x1e00ffff` (the genesis difficulty) and a 10-block window spanning 5
seconds, so `ratio = 100 / 5 = 20` clamps to `4 > 1` (blocks too fast) —
the retargeter computes `newTarget = floor(cur / round(1e6 * (1/4))) * 1e6`,
which is STRICTLY LARGER than the current target, both before re-encoding
and as decoded from the stored bits.  The claim (and the spec) require the
new target to be strictly smaller when the ratio exceeds 1: the source
divides by `round(1e6 / ratio)` and so scales the target directly with the
ratio instead of inversely. -/
theorem c1_retarget_direction_at_fast_window :
    bitsToTarget 0x1e00ffff <
      scaledTarget (bitsToTarget 0x1e00ffff) (retargetDivisor defaultConfig 5) ∧
    bitsToTarget 0x1e00ffff <
      bitsToTarget (retargetStep defaultConfig 0x1e00ffff 5) := by
  have hd := retargetDivisor_fast
  constructor
  · rw [hd]
    decide
  · rw [retargetStep, hd]
    decide

/-! ## Claim C6 -/

/-- Claim C6 (counterexample): for the positive 256-bit target `t = 0xffff`
the encoding produces bits `0x0200ffff`, which decode to `0xff` — a loss of
`0xff00`, far beyond the lowest byte of `t` — and re-encoding the decoded
value gives `0x010000ff ≠ 0x0200ffff`, so the claimed round-trip identity on
produced bits fails. -/
theorem c6_roundtrip_counterexample :
    targetToBits (bitsToTarget (targetToBits 65535)) ≠ targetToBits 65535 ∧
    targetToBits 65535 = 0x0200ffff ∧
    bitsToTarget 0x0200ffff = 255 ∧
    (65535 : Nat) - bitsToTarget (targetToBits 65535) = 65280 := by
  refine ⟨by decide, by decide, by decide, by decide⟩

/-- Claim C6 (amended): for every positive 256-bit target `t`,
`bitsToTarget (targetToBits t) ≤ t`; when `t` has at least four bytes
(`2 ^ 24 ≤ t`) the loss is confined to the bytes below the retained
mantissa — strictly less than `256 ^ (byteLen t - 2)` — and the bits value
produced by the encoding round-trips: re-encoding the decoded target
returns the same bits.  For smaller targets the decoder right-shifts (or
masks) the stored mantissa, so the loss can reach the whole value and the
bits round-trip fails (see the counterexample at `t = 0xffff`). -/
theorem c6_bits_roundtrip_amended (t : Nat) (h0 : 0 < t) (h256 : t < 2 ^ 256) :
    bitsToTarget (targetToBits t) ≤ t ∧
    (2 ^ 24 ≤ t →
      t - bitsToTarget (targetToBits t) < 256 ^ (byteLen t - 2) ∧
      targetToBits (bitsToTarget (targetToBits t)) = targetToBits t) := by
  have hlt : t < 256 ^ 254 := by
    calc t < 2 ^ 256 := h256
      _ ≤ 256 ^ 254 := by norm_num
  exact ⟨bitsToTarget_targetToBits_le t h0 hlt, fun h24 =>
    ⟨(encode_decode_main t h24 hlt).2.1, (encode_decode_main t h24 hlt).2.2.1⟩⟩

/-- Claim C6 witness: the amended theorem instantiated at the four-byte
target `0x12345678`. -/
theorem c6_bits_roundtrip_amended_witness :
    bitsToTarget (targetToBits 0x12345678) ≤ 0x12345678 ∧
    (0x12345678 : Nat) - bitsToTarget (targetToBits 0x12345678) <
      256 ^ (byteLen 0x12345678 - 2) ∧
    targetToBits (bitsToTarget (targetToBits 0x12345678)) =
      targetToBits 0x12345678 := by
  have h := c6_bits_roundtrip_amended 0x12345678 (by decide) (by decide)
  exact ⟨h.1, (h.2 (by decide)).1, (h.2 (by decide)).2⟩

/-! ## Claim C8 -/

/-- Claim C8 (counterexample): a retarget at current bits `0x030f4240`
(target `1e6`) with a slow window (`actual = 800 s`, ratio clamps to `1/4`,
divisor `4e6`) floors the scaled target to 0, clamps it to 1, and stores
bits `0x01000001` — which decode via `bitsToTarget` to 0, not to a target
of at least 1 as the claim states. -/
theorem c8_retarget_decode_counterexample :
    retargetStep defaultConfig 0x030f4240 800 = 0x01000001 ∧
    bitsToTarget (retargetStep defaultConfig 0x030f4240 800) = 0 := by
  have hd := retargetDivisor_slow
  constructor
  · rw [retargetStep, hd]
    decide
  · rw [retargetStep, hd]
    decide

/-- Claim C8 (amended): the retargeter never encodes a target below 1 — the
scaled target is clamped to at least 1 before re-encoding — and whenever
the clamped target is not the literal 1 produced by that clamp (it is then
a positive multiple of `1e6`), the stored bits decode to a target of at
least 1.  When the scaled target floors to 0 and is clamped to 1, the
stored bits `0x01000001` decode to 0 (see the counterexample).  The size
hypothesis bounds the current bits to realistic sizes (the genesis bits
have size byte `0x1e`). -/
theorem c8_retarget_clamp_amended (cfg : Config) (bits : Nat) (actualSec : Rat)
    (hsize : bits / 2 ^ 24 % 256 ≤ 251) :
    1 ≤ scaledTarget (bitsToTarget bits) (retargetDivisor cfg actualSec) ∧
    retargetStep cfg bits actualSec =
      targetToBits
        (scaledTarget (bitsToTarget bits) (retargetDivisor cfg actualSec)) ∧
    (scaledTarget (bitsToTarget bits) (retargetDivisor cfg actualSec) ≠ 1 →
      1 ≤ bitsToTarget (retargetStep cfg bits actualSec)) := by
  refine ⟨scaledTarget_pos _ _, rfl, ?_⟩
  intro hne
  have hcur : bitsToTarget bits < 256 ^ 251 := bitsToTarget_lt_of_size bits hsize
  have hnt : scaledTarget (bitsToTarget bits) (retargetDivisor cfg actualSec) =
      bitsToTarget bits / retargetDivisor cfg actualSec * 1000000 := by
    by_cases hz : bitsToTarget bits / retargetDivisor cfg actualSec * 1000000 = 0
    · exact absurd (by simp [scaledTarget, hz]) hne
    · simp [scaledTarget, hz]
  have hq : 1 ≤ bitsToTarget bits / retargetDivisor cfg actualSec := by
    by_contra h
    push_neg at h
    exact hne (by simp [scaledTarget, Nat.lt_one_iff.mp h])
  have h16 : 2 ^ 16 ≤ scaledTarget (bitsToTarget bits) (retargetDivisor cfg actualSec) := by
    rw [hnt]
    calc (2 : Nat) ^ 16 ≤ 1000000 := by norm_num
      _ ≤ bitsToTarget bits / retargetDivisor cfg actualSec * 1000000 :=
          Nat.le_mul_of_pos_left _ hq
  have hne23 : scaledTarget (bitsToTarget bits) (retargetDivisor cfg actualSec) ≠
      2 ^ 23 := by
    rw [hnt]
    intro hcon
    generalize bitsToTarget bits / retargetDivisor cfg actualSec = q at hcon
    omega
  have hlt4 : scaledTarget (bitsToTarget bits) (retargetDivisor cfg actualSec) <
      256 ^ 254 := by
    rw [hnt]
    calc bitsToTarget bits / retargetDivisor cfg actualSec * 1000000 ≤
          bitsToTarget bits * 1000000 :=
          Nat.mul_le_mul_right _ (Nat.div_le_self _ _)
      _ < 256 ^ 251 * 1000000 := (Nat.mul_lt_mul_right (by norm_num)).mpr hcur
      _ ≤ 256 ^ 251 * 256 ^ 3 := Nat.mul_le_mul_left _ (by norm_num)
      _ = 256 ^ 254 := by rw [← pow_add]
  exact decode_encode_pos _ h16 hne23 hlt4

/-- Claim C8 witness: the amended theorem at a fast retarget from the
genesis bits, where the scaled target is far above 1 and the stored bits
decode to a positive target. -/
theorem c8_retarget_clamp_amended_witness :
    1 ≤ scaledTarget (bitsToTarget 0x1e00ffff) (retargetDivisor defaultConfig 5) ∧
    1 ≤ bitsToTarget (retargetStep defaultConfig 0x1e00ffff 5) := by
  have h := c8_retarget_clamp_amended defaultConfig 0x1e00ffff 5 (by decide)
  exact ⟨h.1, h.2.2 (by rw [retargetDivisor_fast]; decide)⟩

/-! ## Claim C4 -/

/-- Claim C4 (counterexample): resubmitting the pooled spend `spendTx4` —
which still passes `validateTx` against the live UTXO — is answered with
the error `mempool double spend`, not an idempotent ok: the mempool-spent
check precedes the duplicate check and the transaction's own reserved
outpoints trigger it.  (The state is nevertheless unchanged.) -/
theorem c4_duplicate_spend_counterexample :
    postTransaction trivC defaultConfig state4 spendTx4 =
      (.err "mempool double spend", state4) ∧
    (mempoolGet state4.mempool spendTx4.id).isSome = true ∧
    validateTx trivC defaultConfig state4.utxo state4.chain.length spendTx4 =
      .ok () := by
  exact ⟨rfl, rfl, rfl⟩

/-- Claim C4 (amended): submitting a transaction whose id is already in the
mempool always leaves the node state (mempool, mempool-spent set, chain,
UTXO) unchanged, but the response is an idempotent ok exactly when the
transaction passes `validateTx` and none of its outpoints is reserved in
the mempool-spent set — e.g. for an input-less transaction.  A pooled spend
hits the reserved-outpoint check first and is answered with an error. -/
theorem c4_duplicate_submission_amended (C : Crypto) (cfg : Config)
    (s : NodeState) (tx0 : Tx)
    (hdup : (mempoolGet s.mempool (assignTxId C tx0).id).isSome = true) :
    (postTransaction C cfg s tx0).2 = s ∧
    ((postTransaction C cfg s tx0).1 = .ok (assignTxId C tx0).id ↔
      (validateTx C cfg s.utxo s.chain.length (assignTxId C tx0) = .ok () ∧
       ((assignTxId C tx0).inputs.any fun i =>
         s.mempoolSpent.contains (outKey i.txid i.index)) = false)) := by
  rw [postTransaction]
  cases hv : validateTx C cfg s.utxo s.chain.length (assignTxId C tx0) with
  | error e =>
    refine ⟨rfl, ?_⟩
    constructor
    · intro hcon
      exact absurd hcon (by simp)
    · rintro ⟨hok, -⟩
      exact absurd hok (by simp)
  | ok uu =>
    cases uu
    by_cases hsp : ((assignTxId C tx0).inputs.any fun i =>
        s.mempoolSpent.contains (outKey i.txid i.index)) = true
    · rw [if_pos hsp]
      refine ⟨rfl, ?_⟩
      constructor
      · intro hcon
        exact absurd hcon (by simp)
      · rintro ⟨-, hfalse⟩
        exact absurd (hsp.symm.trans hfalse) (by simp)
    · have hsp2 : ((assignTxId C tx0).inputs.any fun i =>
          s.mempoolSpent.contains (outKey i.txid i.index)) = false := by
        simpa using hsp
      rw [if_neg hsp, if_pos hdup]
      exact ⟨rfl, ⟨fun _ => ⟨rfl, hsp2⟩, fun _ => rfl⟩⟩

/-- Claim C4 witness: the amended theorem at a pooled input-less
transaction, whose resubmission is an idempotent ok with the state
unchanged. -/
theorem c4_duplicate_submission_amended_witness :
    ((postTransaction trivC defaultConfig
        { chain := [genesisB], utxo := rebuildUTXO [genesisB]
          mempool := [("cc", { id := "cc", isCoinbase := true, inputs := []
                               outputs := [{ address := "x", amount := 1 }] })]
          mempoolSpent := [], bits := 0x1e00ffff }
        { id := "cc", isCoinbase := true, inputs := []
          outputs := [{ address := "x", amount := 1 }] }).2 =
      { chain := [genesisB], utxo := rebuildUTXO [genesisB]
        mempool := [("cc", { id := "cc", isCoinbase := true, inputs := []
                             outputs := [{ address := "x", amount := 1 }] })]
        mempoolSpent := [], bits := 0x1e00ffff }) ∧
    (postTransaction trivC defaultConfig
        { chain := [genesisB], utxo := rebuildUTXO [genesisB]
          mempool := [("cc", { id := "cc", isCoinbase := true, inputs := []
                               outputs := [{ address := "x", amount := 1 }] })]
          mempoolSpent := [], bits := 0x1e00ffff }
        { id := "cc", isCoinbase := true, inputs := []
          outputs := [{ address := "x", amount := 1 }] }).1 = .ok "cc" := by
  have h := c4_duplicate_submission_amended trivC defaultConfig
    { chain := [genesisB], utxo := rebuildUTXO [genesisB]
      mempool := [("cc", { id := "cc", isCoinbase := true, inputs := []
                           outputs := [{ address := "x", amount := 1 }] })]
      mempoolSpent := [], bits := 0x1e00ffff }
    { id := "cc", isCoinbase := true, inputs := []
      outputs := [{ address := "x", amount := 1 }] } rfl
  exact ⟨h.1, h.2.mpr ⟨rfl, rfl⟩⟩

/-! ## Claim C5 -/

/-- Claim C5 (counterexample): `validateTx` accepts the non-coinbase
transaction with zero inputs and zero outputs — the source has no
nonemptiness rule, so the claimed rejection of every zero-input or
zero-output transaction is false. -/
theorem c5_empty_spend_counterexample :
    validateTx trivC defaultConfig emptyUtxo 1 emptySpendTx = .ok () := rfl

/-- Claim C5 (amended): `validateTx` rejects every non-coinbase transaction
with zero inputs and at least one output (its output sum is then positive
while its input sum is zero), and rejects every transaction containing an
output whose amount is not positive; but a transaction with zero outputs
(in particular the empty spend) passes, as no explicit nonemptiness check
exists. -/
theorem c5_validateTx_amended (C : Crypto) (cfg : Config) (u : Utxo) (h : Nat)
    (tx : Tx) :
    (tx.isCoinbase = false → tx.inputs = [] → tx.outputs ≠ [] →
      ∃ e, validateTx C cfg u h tx = .error e) ∧
    ((∃ o ∈ tx.outputs, o.amount ≤ 0) →
      ∃ e, validateTx C cfg u h tx = .error e) := by
  constructor
  · intro hcb hin hout
    rw [validateTx, hcb, hin]
    rw [if_neg (by simp)]
    dsimp only [checkTxInputs]
    by_cases hany : (tx.outputs.any fun o => decide (o.amount ≤ 0)) = true
    · exact ⟨_, by rw [if_pos hany]⟩
    · have hpos : ∀ o ∈ tx.outputs, 0 < o.amount := by
        intro o ho
        by_contra hle
        push_neg at hle
        exact hany (by simp only [List.any_eq_true, decide_eq_true_eq]; exact ⟨o, ho, hle⟩)
      have hsum : (0 : Int) < outSum tx.outputs := by
        rw [outSum]
        apply List.sum_pos
        · intro x hx
          obtain ⟨o, ho, rfl⟩ := List.mem_map.mp hx
          exact hpos o ho
        · simpa using hout
      exact ⟨_, by rw [if_neg hany, if_pos hsum]⟩
  · rintro ⟨o, ho, hle⟩
    rw [validateTx]
    by_cases hcb : tx.isCoinbase = true
    · rw [if_pos hcb]
      by_cases hlen : tx.inputs.length ≠ 0
      · exact ⟨_, by rw [if_pos hlen]⟩
      · refine ⟨"coinbase bad amount", ?_⟩
        rw [if_neg hlen, if_pos]
        simp only [List.any_eq_true, decide_eq_true_eq]
        exact ⟨o, ho, hle⟩
    · rw [if_neg hcb]
      cases hc : checkTxInputs C cfg u h tx tx.inputs [] 0 with
      | error e => exact ⟨e, rfl⟩
      | ok inSum =>
        refine ⟨"output <= 0", ?_⟩
        dsimp only
        rw [if_pos]
        simp only [List.any_eq_true, decide_eq_true_eq]
        exact ⟨o, ho, hle⟩

/-- Claim C5 witness: the amended theorem at a zero-input one-output spend
(rejected) and at a coinbase with a zero-amount output (rejected). -/
theorem c5_validateTx_amended_witness :
    (∃ e, validateTx trivC defaultConfig emptyUtxo 0
      { id := "w5a", isCoinbase := false, inputs := []
        outputs := [{ address := "a", amount := 3 }] } = .error e) ∧
    (∃ e, validateTx trivC defaultConfig emptyUtxo 0
      { id := "w5b", isCoinbase := true, inputs := []
        outputs := [{ address := "a", amount := 0 }] } = .error e) := by
  constructor
  · exact (c5_validateTx_amended trivC defaultConfig emptyUtxo 0 _).1 rfl rfl
      (by simp)
  · exact (c5_validateTx_amended trivC defaultConfig emptyUtxo 0 _).2
      ⟨{ address := "a", amount := 0 }, by simp, le_refl 0⟩

/-- A rejected block leaves the handler state untouched: the shared helper
behind claims about `/blocks` rejection. -/
theorem postBlock_of_error (C : Crypto) (cfg : Config) (now : Int)
    (s : NodeState) (b : Block) (e : String)
    (h : validateBlock C cfg now s.chain s.utxo
      { b with transactions := b.transactions.map (assignTxId C) } = .error e) :
    postBlock C cfg now s b = (.err e, s) := by
  rw [postBlock]
  rw [h]

/-! ## Claim C7 -/

/-- Claim C7: block submission is atomic.  When `validateBlock` rejects the
submitted block (after the missing-id fill-in, which mutates only the
request object), the handler answers with that error and returns the state
unchanged — chain, UTXO map, mempool, and mempool-spent set included;
`applyBlock` and `maybeRetarget` run only after validation succeeds. -/
theorem c7_reject_leaves_state_unchanged (C : Crypto) (cfg : Config)
    (now : Int) (s : NodeState) (b : Block) (e : String)
    (h : validateBlock C cfg now s.chain s.utxo
      { b with transactions := b.transactions.map (assignTxId C) } = .error e) :
    postBlock C cfg now s b = (.err e, s) :=
  postBlock_of_error C cfg now s b e h

/-- Claim C7 witness: a block with a wrong index submitted to the
genesis-only node is rejected with `bad index` and the state is returned
untouched. -/
theorem c7_reject_leaves_state_unchanged_witness :
    postBlock trivC defaultConfig 0 state9 { block9 with index := 5 } =
      (.err "bad index", state9) :=
  c7_reject_leaves_state_unchanged trivC defaultConfig 0 state9
    { block9 with index := 5 } "bad index" rfl

/-! ## Claim C9 -/

/-- Claim C9: `validateBlock` never compares a transaction's `id` with the
deterministic content id `txIdFor`.  The block `block9`, whose coinbase
carries the arbitrary id `"deadbeef"` (different from `txIdFor trivC` of
its content) and whose merkle root is computed over that supplied id, is
accepted and applied, after which the UTXO is keyed by the supplied id. -/
theorem c9_arbitrary_tx_ids_accepted :
    validateBlock trivC defaultConfig 0 state9.chain state9.utxo block9 =
      .ok () ∧
    cbTx9.id ≠ txIdFor trivC cbTx9 ∧
    (postBlock trivC defaultConfig 0 state9 block9).1 = .ok 1 ∧
    (postBlock trivC defaultConfig 0 state9 block9).2.utxo
        (outKey "deadbeef" 0) =
      some { amount := 5, address := "miner", blockHeight := 1
             isCoinbase := true } := by
  exact ⟨rfl, by decide, rfl, rfl⟩

/-! ## Claim C10 -/

/-- Claim C10: `maxBlockTx` is not a consensus rule.  The block `block10`
with 27 transactions (more than `maxBlockTx = 25`) passes `validateBlock`
on the genesis-only state, while the candidate assembler never returns more
than `maxBlockTx + 1` transactions (coinbase plus the capped mempool
slice). -/
theorem c10_maxBlockTx_not_consensus :
    (validateBlock trivC defaultConfig 0 [genesisB] (rebuildUTXO [genesisB])
        block10 = .ok () ∧
      block10.transactions.length = 27 ∧
      defaultConfig.maxBlockTx < 27) ∧
    (∀ (C : Crypto) (cfg : Config) (s : NodeState) (addr : String) (now : Int),
      ((blockCandidate C cfg s addr now).map
        fun b => b.transactions.length).getD 0 ≤ cfg.maxBlockTx + 1) := by
  refine ⟨⟨rfl, rfl, by decide⟩, ?_⟩
  intro C cfg s addr now
  rw [blockCandidate]
  cases s.chain.getLast? with
  | none => simp
  | some tip =>
    simp only [Option.map_some', Option.getD_some, List.length_map,
      List.length_cons]
    have : ((s.mempool.map Prod.snd).take cfg.maxBlockTx).length ≤
        cfg.maxBlockTx := by
      rw [List.length_take]
      omega
    omega

/-! ## Claim C2 -/

theorem maybeRetarget_chain (cfg : Config) (s : NodeState) :
    (maybeRetarget cfg s).chain = s.chain := by
  rw [maybeRetarget]
  split <;> rfl

theorem maybeRetarget_utxo (cfg : Config) (s : NodeState) :
    (maybeRetarget cfg s).utxo = s.utxo := by
  rw [maybeRetarget]
  split <;> rfl

theorem postTransaction_chain_utxo (C : Crypto) (cfg : Config) (s : NodeState)
    (tx : Tx) :
    (postTransaction C cfg s tx).2.chain = s.chain ∧
    (postTransaction C cfg s tx).2.utxo = s.utxo := by
  rw [postTransaction]
  cases hv : validateTx C cfg s.utxo s.chain.length (assignTxId C tx) with
  | error e => exact ⟨rfl, rfl⟩
  | ok u =>
    dsimp only
    split
    · exact ⟨rfl, rfl⟩
    · split
      · exact ⟨rfl, rfl⟩
      · exact ⟨rfl, rfl⟩

theorem foldl_triple_fst (bIdx : Nat) (txs : List Tx) :
    ∀ (u : Utxo) (mp : List (String × Tx)) (sp : List String),
      (txs.foldl
        (fun (acc : Utxo × List (String × Tx) × List String) tx =>
          let u2 := applyTxUtxo bIdx acc.1 tx
          let msp := evictMinedTx acc.2.1 acc.2.2 tx
          (u2, msp.1, msp.2))
        (u, mp, sp)).1 =
      txs.foldl (fun u2 tx => applyTxUtxo bIdx u2 tx) u := by
  induction txs with
  | nil => intro u mp sp; rfl
  | cons t rest ih =>
    intro u mp sp
    simp only [List.foldl_cons]
    exact ih _ _ _

theorem applyBlockState_utxo (s : NodeState) (b : Block) :
    (applyBlockState s b).utxo =
      b.transactions.foldl (fun u tx => applyTxUtxo b.index u tx) s.utxo := by
  rw [applyBlockState]
  exact foldl_triple_fst b.index b.transactions s.utxo s.mempool s.mempoolSpent

theorem applyBlockState_chain (s : NodeState) (b : Block) :
    (applyBlockState s b).chain = s.chain ++ [b] := by
  rw [applyBlockState]

theorem rebuildUTXO_append (c : List Block) (b : Block) :
    rebuildUTXO (c ++ [b]) =
      b.transactions.foldl (fun u tx => applyTxUtxo b.index u tx)
        (rebuildUTXO c) := by
  rw [rebuildUTXO, rebuildUTXO, List.foldl_append]
  rfl

/-- Claim C2: in every reachable node state the live UTXO map equals the
replay `rebuildUTXO` of its chain — the boot establishes it by construction,
transaction admission touches neither chain nor UTXO, a rejected block
changes nothing, and an accepted block updates the UTXO by exactly the fold
step that replaying the extended chain appends (`rebuildUTXO_append`). -/
theorem c2_utxo_is_replay (C : Crypto) (cfg : Config) (s : NodeState)
    (h : Reach C cfg s) : s.utxo = rebuildUTXO s.chain := by
  induction h with
  | boot chain0 bits0 => rfl
  | stepTx s1 tx hr ih =>
    obtain ⟨hc, hu⟩ := postTransaction_chain_utxo C cfg s1 tx
    rw [hc, hu, ih]
  | stepBlock s1 now b hr ih =>
    by_cases hv : ∃ e, validateBlock C cfg now s1.chain s1.utxo
        { b with transactions := b.transactions.map (assignTxId C) } = .error e
    · obtain ⟨e, he⟩ := hv
      rw [postBlock_of_error C cfg now s1 b e he]
      exact ih
    · have hok : validateBlock C cfg now s1.chain s1.utxo
          { b with transactions := b.transactions.map (assignTxId C) } =
          .ok () := by
        cases hres : validateBlock C cfg now s1.chain s1.utxo
            { b with transactions := b.transactions.map (assignTxId C) } with
        | error e => exact absurd ⟨e, hres⟩ hv
        | ok uu => cases uu; rfl
      have hpost : (postBlock C cfg now s1 b).2 =
          maybeRetarget cfg (applyBlockState s1
            { b with transactions := b.transactions.map (assignTxId C) }) := by
        rw [postBlock, hok]
      rw [hpost, maybeRetarget_utxo, maybeRetarget_chain, applyBlockState_utxo,
        applyBlockState_chain, rebuildUTXO_append, ih]

/-- Claim C2 witness: the invariant at the state reached by booting the
genesis chain and accepting `block9` through the `/blocks` handler. -/
theorem c2_utxo_is_replay_witness :
    (postBlock trivC defaultConfig 0 state9 block9).2.utxo =
      rebuildUTXO (postBlock trivC defaultConfig 0 state9 block9).2.chain :=
  c2_utxo_is_replay trivC defaultConfig _
    (Reach.stepBlock state9 0 block9 (Reach.boot [genesisB] 0x1e00ffff))

/-! ## Claim C3 -/

/-- Claim C3: every block accepted by `validateBlock` pays its coinbase at
most `getBlockReward(index) + feeTotal`, where `feeTotal` is the sum of
`inSum - outSum` over the block's non-coinbase transactions as computed by
the block walk over the temporary UTXO map; and a block whose coinbase
exceeds that bound is rejected. -/
theorem c3_coinbase_value_bound (C : Crypto) (cfg : Config) (now : Int)
    (chain : List Block) (u : Utxo) (b : Block) :
    (validateBlock C cfg now chain u b = .ok () →
      ∀ temp fee cnt,
        blockTxWalk C cfg b.index b.transactions u 0 0 = .ok (temp, fee, cnt) →
        ∀ cb, b.transactions.find? (fun t => t.isCoinbase) = some cb →
          outSum cb.outputs ≤ (getBlockReward cfg b.index : Int) + fee) ∧
    (∀ temp fee cnt,
      blockTxWalk C cfg b.index b.transactions u 0 0 = .ok (temp, fee, cnt) →
      ∀ cb, b.transactions.find? (fun t => t.isCoinbase) = some cb →
        (getBlockReward cfg b.index : Int) + fee < outSum cb.outputs →
        ∃ e, validateBlock C cfg now chain u b = .error e) := by
  constructor
  · intro h temp fee cnt hwalk cb hfind
    rw [validateBlock] at h
    cases hcl : checkLink C chain b with
    | error e => rw [hcl] at h; exact absurd h (by simp)
    | ok uu =>
      cases uu
      rw [hcl] at h
      dsimp only at h
      split_ifs at h with h1 h2 h3
      rw [hwalk] at h
      dsimp only at h
      split_ifs at h with h4
      rw [hfind] at h
      dsimp only at h
      split_ifs at h with h5
      omega
  · intro temp fee cnt hwalk cb hfind hgt
    rw [validateBlock]
    cases hcl : checkLink C chain b with
    | error e => exact ⟨e, rfl⟩
    | ok uu =>
      cases uu
      dsimp only
      by_cases h1 : now + 7200000 < b.timestamp
      · exact ⟨_, by rw [if_pos h1]⟩
      · rw [if_neg h1]
        by_cases h2 : merkleRootOf C (b.transactions.map fun t => t.id) ≠
            b.merkleRoot
        · exact ⟨_, by rw [if_pos h2]⟩
        · rw [if_neg h2]
          by_cases h3 : ¬ hashMeetsBits (headerHashOf C b) b.bits = true
          · exact ⟨_, by rw [if_pos h3]⟩
          · rw [if_neg h3, hwalk]
            dsimp only
            by_cases h4 : cnt ≠ 1
            · exact ⟨_, by rw [if_pos h4]⟩
            · rw [if_neg h4, hfind]
              exact ⟨_, by dsimp only; rw [if_pos hgt]⟩

/-- Claim C3 witness: the bound at the accepted coinbase-only `block9`
(`5 ≤ subsidy(1) + 0`), and the rejection of the same block shape paying a
6-coin coinbase with no fees available. -/
theorem c3_coinbase_value_bound_witness :
    outSum cbTx9.outputs ≤ (getBlockReward defaultConfig 1 : Int) + 0 ∧
    (∃ e, validateBlock trivC defaultConfig 0 state9.chain state9.utxo
      { index := 1, previousHash := "00", timestamp := 0
        transactions := [{ id := "cc", isCoinbase := true, inputs := []
                           outputs := [{ address := "m", amount := 6 }] }]
        merkleRoot := "cc", nonce := 0, bits := 0x1e00ffff } = .error e) := by
  constructor
  · exact (c3_coinbase_value_bound trivC defaultConfig 0 state9.chain
      state9.utxo block9).1 rfl _ 0 1 rfl cbTx9 rfl
  · exact (c3_coinbase_value_bound trivC defaultConfig 0 state9.chain
      state9.utxo _).2 _ 0 1 rfl
      { id := "cc", isCoinbase := true, inputs := []
        outputs := [{ address := "m", amount := 6 }] } rfl (by decide)
